import Mathlib

/-!
# FFP Retention Analysis — verification of the cohort/retention core

Shallow embedding of the retention, cohort and engagement computations of the
FFP-Retention-Analysis scripts:

* `retention-trend.py` (`run_retention_trend`): deduplication, cohort-offset
  table, monthly churn trend, rolling new-joiner retention;
* `pyqt5UI-chart-with-map.py` (`RetentionApp.calc_retention`,
  `RetentionApp.generate_excel`): threshold-based monthly retention and the
  spreadsheet export;
* `Engagement_Analysis.py` (module level): schema validation, weekday-only
  weekly bucketing.

Dates are modelled abstractly.  For the monthly scripts a date is a pair of a
month index (`ym`, a year-month rank such as pandas' `Period("M").ordinal`)
and a day-of-month; comparison is lexicographic, exactly the order pandas
timestamps induce on such pairs.  For the weekly script a date is a serial day
number whose epoch is a Monday, so `dayofweek = date % 7` with `0 = Monday`.
-/

/-- A calendar date, as the monthly scripts see it: `ym` is the month index
(year-month rank), `day` the day within that month.  pandas timestamp order
is the lexicographic order on `(ym, day)`. -/
structure Date where
  ym : Nat
  day : Nat
deriving DecidableEq, Repr

/-- Strict order on dates (lexicographic on month index, then day), the order
pandas uses for `Timestamp` comparison and `min`/`max`. -/
def dateLt (a b : Date) : Prop :=
  a.ym < b.ym ∨ (a.ym = b.ym ∧ a.day < b.day)

instance (a b : Date) : Decidable (dateLt a b) := by
  unfold dateLt; infer_instance

/-- Binary minimum of two dates in the lexicographic order (ties keep the
left argument, as pandas `min` does). -/
def dateMin (a b : Date) : Date :=
  if dateLt b a then b else a

/-- Binary maximum of two dates in the lexicographic order. -/
def dateMax (a b : Date) : Date :=
  if dateLt a b then b else a

/-- Minimum of a list of dates (`Series.min` on a per-person date column);
`none` on an empty list (pandas `NaT`). -/
def minDateOf : List Date → Option Date
  | [] => none
  | d :: ds => some (ds.foldl dateMin d)

theorem dateMin_ym (a b : Date) : (dateMin a b).ym = min a.ym b.ym := by
  unfold dateMin dateLt
  split
  · next h =>
    rcases h with h | ⟨h, _⟩
    · omega
    · omega
  · next h =>
    rw [not_or] at h
    obtain ⟨h1, _⟩ := h
    omega

theorem dateMin_mem (a b : Date) : dateMin a b = a ∨ dateMin a b = b := by
  unfold dateMin; split <;> simp

/-- The minimum of a nonempty list of dates is a member of the list. -/
theorem minDateOf_mem {l : List Date} {d : Date} (h : minDateOf l = some d) :
    d ∈ l := by
  match l with
  | [] => simp [minDateOf] at h
  | a :: as =>
    simp only [minDateOf, Option.some.injEq] at h
    subst h
    induction as generalizing a with
    | nil => simp
    | cons b bs ih =>
      simp only [List.foldl_cons]
      rcases dateMin_mem a b with hm | hm <;> rw [hm]
      · have := ih a
        simp only [List.mem_cons] at this ⊢
        tauto
      · have := ih b
        simp only [List.mem_cons] at this ⊢
        tauto

theorem foldl_dateMin_ym (as : List Date) (a : Date) :
    (as.foldl dateMin a).ym ≤ a.ym ∧ ∀ e ∈ as, (as.foldl dateMin a).ym ≤ e.ym := by
  induction as generalizing a with
  | nil => simp
  | cons b bs ih =>
    simp only [List.foldl_cons]
    obtain ⟨h1, h2⟩ := ih (dateMin a b)
    have hab := dateMin_ym a b
    refine ⟨by omega, ?_⟩
    intro e he
    simp only [List.mem_cons] at he
    rcases he with rfl | he
    · omega
    · exact h2 e he

/-- The month of the minimum date of a list bounds the months of all its
elements: `groupby(...)["Date"].transform("min").dt.to_period("M")` agrees
with taking the minimum of the per-record month column. -/
theorem minDateOf_ym {l : List Date} {d : Date} (h : minDateOf l = some d) :
    ∀ e ∈ l, d.ym ≤ e.ym := by
  match l with
  | [] => simp [minDateOf] at h
  | a :: as =>
    simp only [minDateOf, Option.some.injEq] at h
    subst h
    intro e he
    obtain ⟨h1, h2⟩ := foldl_dateMin_ym as a
    simp only [List.mem_cons] at he
    rcases he with rfl | he
    · exact h1
    · exact h2 e he

/-! ## `retention-trend.py` — data preparation

`run_retention_trend` loads the sheet, coerces dates, drops rows with missing
`Date`/`Attendee ID` (well-formedness we assume of the model input), and then
deduplicates: `df.drop_duplicates(subset=["Attendee ID", "Date"])`, keeping
the first row of each `(Attendee ID, Date)` pair. -/

/-- One attendance row as `retention-trend.py` uses it: an `Attendee ID` and a
`Date` (other columns play no role in that script). -/
structure Event where
  person : Nat
  date : Date
deriving DecidableEq, Repr

/-- The deduplication key of a row: the `(Attendee ID, Date)` pair. -/
def eventKey (e : Event) : Nat × Date := (e.person, e.date)

/-- Worker for `drop_duplicates(subset=..., keep="first")`: walk the rows in
order, keeping a row iff its key has not been seen before. -/
def dedupGo {α κ : Type} [DecidableEq κ] (key : α → κ) :
    List κ → List α → List α
  | _, [] => []
  | seen, e :: es =>
    if key e ∈ seen then dedupGo key seen es
    else e :: dedupGo key (key e :: seen) es

/-- `DataFrame.drop_duplicates(subset=keys)`: keep the first row for each
key, drop later rows with the same key.  Used by `retention-trend.py`
(line 32) and `Engagement_Analysis.py` (line 30) with the
`(Attendee ID, Date)` key. -/
def dropDuplicates {α κ : Type} [DecidableEq κ] (key : α → κ) (l : List α) :
    List α :=
  dedupGo key [] l

theorem dedupGo_countP {α κ : Type} [DecidableEq κ] (key : α → κ) (k : κ)
    (seen : List κ) (l : List α) :
    (dedupGo key seen l).countP (fun e => key e = k) =
      (if k ∈ seen then 0
       else if ∃ e ∈ l, key e = k then 1 else 0) := by
  induction l generalizing seen with
  | nil => simp [dedupGo, List.countP_nil]
  | cons e es ih =>
    by_cases hek : key e = k
    · subst hek
      by_cases hseen : key e ∈ seen
      · rw [dedupGo, if_pos hseen, ih, if_pos hseen, if_pos hseen]
      · rw [dedupGo, if_neg hseen, List.countP_cons, ih,
            if_pos (List.mem_cons_self _ _), if_neg hseen]
        simp
    · have hmem : (k ∈ key e :: seen) ↔ (k ∈ seen) := by
        constructor
        · intro hh
          rcases List.mem_cons.mp hh with hh | hh
          · exact absurd hh.symm hek
          · exact hh
        · exact List.mem_cons_of_mem _
      have hex : (∃ x ∈ e :: es, key x = k) ↔ (∃ x ∈ es, key x = k) := by
        constructor
        · rintro ⟨x, hx, hxk⟩
          rcases List.mem_cons.mp hx with rfl | hx
          · exact absurd hxk hek
          · exact ⟨x, hx, hxk⟩
        · rintro ⟨x, hx, hxk⟩
          exact ⟨x, List.mem_cons_of_mem _ hx, hxk⟩
      by_cases hseen : key e ∈ seen
      · rw [dedupGo, if_pos hseen, ih]
        by_cases hk : k ∈ seen
        · rw [if_pos hk, if_pos hk]
        · rw [if_neg hk, if_neg hk, if_congr hex rfl rfl]
      · rw [dedupGo, if_neg hseen, List.countP_cons, ih]
        have hd : (decide (key e = k) : Bool) = false := by simp [hek]
        rw [hd]
        simp only [Bool.false_eq_true, if_false, Nat.add_zero]
        by_cases hk : k ∈ seen
        · rw [if_pos (hmem.mpr hk), if_pos hk]
        · rw [if_neg (fun hh => hk (hmem.mp hh)), if_neg hk,
              if_congr hex rfl rfl]

/-- Deduplication correctness, generic in the key: for every key value that
occurs in the input, the output of `drop_duplicates` contains exactly one
element with that key. -/
theorem dropDuplicates_count_eq_one {α κ : Type} [DecidableEq κ]
    (key : α → κ) (l : List α) (k : κ)
    (hin : ∃ e ∈ l, key e = k) :
    (dropDuplicates key l).countP (fun e => key e = k) = 1 := by
  unfold dropDuplicates
  rw [dedupGo_countP]
  simp only [List.not_mem_nil, if_false]
  exact if_pos hin

/-- C5 — Deduplication: for every input sequence of raw attendance events
and every `(person_id, date)` pair present in the input — even when several
raw events share that pair — the output of
`drop_duplicates(subset=["Attendee ID", "Date"])` contains exactly one
record with that pair. -/
theorem dedup_one_record_per_pair (l : List Event) (p : Nat) (d : Date)
    (hin : ∃ e ∈ l, eventKey e = (p, d)) :
    (dropDuplicates eventKey l).countP (fun e => eventKey e = (p, d)) = 1 :=
  dropDuplicates_count_eq_one eventKey l (p, d) hin

/-- Witness for C5 at a concrete input with three raw events sharing the
pair `(1, day 1 of month 0)`. -/
theorem dedup_one_record_per_pair_witness :
    (∃ e ∈ [Event.mk 1 ⟨0, 1⟩, Event.mk 1 ⟨0, 1⟩, Event.mk 1 ⟨0, 1⟩,
            Event.mk 2 ⟨0, 3⟩], eventKey e = (1, ⟨0, 1⟩)) ∧
    (dropDuplicates eventKey
      [Event.mk 1 ⟨0, 1⟩, Event.mk 1 ⟨0, 1⟩, Event.mk 1 ⟨0, 1⟩,
       Event.mk 2 ⟨0, 3⟩]).countP (fun e => eventKey e = (1, ⟨0, 1⟩)) = 1 :=
  ⟨by decide, dedup_one_record_per_pair _ 1 ⟨0, 1⟩ (by decide)⟩

/-! ## `retention-trend.py` — month fields and cohort table

Lines 35–50: `Month = Date.dt.to_period("M")`, `JoinMonth` is the month of
the person's earliest date, `MonthOffset = (Month − JoinMonth).n`, and the
cohort table counts distinct attendees per `(JoinMonth, MonthOffset)`. -/

/-- `Month` column: the month index of a record's date
(`df["Date"].dt.to_period("M")`). -/
def monthOf (e : Event) : Nat := e.date.ym

/-- Sorted list of the distinct months present in the record set (the keys
of `df.groupby("Month")`, in chronological order). -/
def monthsList (recs : List Event) : List Nat :=
  List.insertionSort (· ≤ ·) (recs.map monthOf).dedup

/-- Persons with at least one record in month `m`
(`df.groupby("Month")["Attendee ID"].apply(set)` at key `m`). -/
def activeIn (recs : List Event) (m : Nat) : Finset Nat :=
  ((recs.filter (fun e => monthOf e = m)).map Event.person).toFinset

/-- All persons appearing in the record set. -/
def personsOf (recs : List Event) : Finset Nat :=
  (recs.map Event.person).toFinset

/-- The dates of one person's records. -/
def datesOf (recs : List Event) (p : Nat) : List Date :=
  (recs.filter (fun e => e.person = p)).map Event.date

/-- `JoinMonth` column: the month of the person's earliest record
(`df.groupby("Attendee ID")["Date"].transform("min").dt.to_period("M")`);
`none` for a person absent from the record set. -/
def joinMonth (recs : List Event) (p : Nat) : Option Nat :=
  (minDateOf (datesOf recs p)).map Date.ym

/-- `MonthOffset` column: `(Month − JoinMonth).n`, in whole months. -/
def monthOffset (recs : List Event) (e : Event) : Nat :=
  monthOf e - (joinMonth recs e.person).getD 0

/-- Cohort table cell at `(J, k)`:
`df.groupby(["JoinMonth", "MonthOffset"])["Attendee ID"].nunique()` — the
number of distinct persons having some record with join month `J` and month
offset `k`. -/
def cohortCell (recs : List Event) (J k : Nat) : Nat :=
  (((recs.filter
      (fun e => joinMonth recs e.person = some J ∧ monthOffset recs e = k)).map
    Event.person).toFinset).card

/-- Cohort size in the claim's words: the number of distinct persons whose
join month (month of their earliest record) is `J`. -/
def cohortSize (recs : List Event) (J : Nat) : Nat :=
  ((personsOf recs).filter (fun p => joinMonth recs p = some J)).card

/-- Normalized cohort retention rate:
`cohort_pivot.divide(cohort_size, axis=0) * 100` at `(J, k)`. -/
def cohortRate (recs : List Event) (J k : Nat) : ℚ :=
  (cohortCell recs J k : ℚ) / (cohortCell recs J 0 : ℚ) * 100

theorem mem_personsOf {recs : List Event} {p : Nat} :
    p ∈ personsOf recs ↔ ∃ e ∈ recs, e.person = p := by
  unfold personsOf
  simp only [List.mem_toFinset, List.mem_map]

theorem mem_activeIn {recs : List Event} {m p : Nat} :
    p ∈ activeIn recs m ↔ ∃ e ∈ recs, e.person = p ∧ monthOf e = m := by
  unfold activeIn
  simp only [List.mem_toFinset, List.mem_map, List.mem_filter,
    decide_eq_true_eq]
  constructor
  · rintro ⟨e, ⟨he, hm⟩, rfl⟩; exact ⟨e, he, rfl, hm⟩
  · rintro ⟨e, he, rfl, hm⟩; exact ⟨e, ⟨he, hm⟩, rfl⟩

theorem mem_datesOf {recs : List Event} {p : Nat} {d : Date} :
    d ∈ datesOf recs p ↔ ∃ e ∈ recs, e.person = p ∧ e.date = d := by
  unfold datesOf
  simp only [List.mem_map, List.mem_filter, decide_eq_true_eq]
  constructor
  · rintro ⟨e, ⟨he, hp⟩, rfl⟩; exact ⟨e, he, hp, rfl⟩
  · rintro ⟨e, he, hp, rfl⟩; exact ⟨e, ⟨he, hp⟩, rfl⟩

/-- A person present in the record set has a join month. -/
theorem joinMonth_of_mem {recs : List Event} {p : Nat}
    (h : p ∈ personsOf recs) : ∃ J, joinMonth recs p = some J := by
  rw [mem_personsOf] at h
  obtain ⟨e, he, rfl⟩ := h
  have hd : e.date ∈ datesOf recs e.person :=
    mem_datesOf.mpr ⟨e, he, rfl, rfl⟩
  unfold joinMonth
  cases hds : datesOf recs e.person with
  | nil => rw [hds] at hd; simp at hd
  | cons a as => exact ⟨(as.foldl dateMin a).ym, by simp [minDateOf]⟩

/-- The join month bounds from below the month of every record of that
person. -/
theorem joinMonth_le {recs : List Event} {p J : Nat}
    (h : joinMonth recs p = some J) :
    ∀ e ∈ recs, e.person = p → J ≤ monthOf e := by
  unfold joinMonth at h
  cases hm : minDateOf (datesOf recs p) with
  | none => rw [hm] at h; simp at h
  | some d =>
    rw [hm] at h
    simp only [Option.map_some', Option.some.injEq] at h
    subst h
    intro e he hep
    exact minDateOf_ym hm e.date (mem_datesOf.mpr ⟨e, he, hep, rfl⟩)

/-- A person attends in their join month: the earliest record itself falls
there. -/
theorem joinMonth_attended {recs : List Event} {p J : Nat}
    (h : joinMonth recs p = some J) :
    ∃ e ∈ recs, e.person = p ∧ monthOf e = J := by
  unfold joinMonth at h
  cases hm : minDateOf (datesOf recs p) with
  | none => rw [hm] at h; simp at h
  | some d =>
    rw [hm] at h
    simp only [Option.map_some', Option.some.injEq] at h
    subst h
    obtain ⟨e, he, hp, hd⟩ := mem_datesOf.mp (minDateOf_mem hm)
    exact ⟨e, he, hp, by rw [monthOf, hd]⟩

/-- C4 — Cohort offset 0 equals cohort size: for every record set and
every join month `J` realized by some person in it, the cohort cell at
`(J, 0)` equals the number of distinct persons whose join month is `J`, and
the normalized retention rate at offset 0 is 100. -/
theorem cohort_offset_zero_eq_size (recs : List Event) (J : Nat)
    (hJ : ∃ p ∈ personsOf recs, joinMonth recs p = some J) :
    cohortCell recs J 0 = cohortSize recs J ∧ cohortRate recs J 0 = 100 := by
  have hset :
      ((recs.filter
          (fun e => joinMonth recs e.person = some J ∧ monthOffset recs e = 0)).map
        Event.person).toFinset =
      (personsOf recs).filter (fun p => joinMonth recs p = some J) := by
    ext p
    simp only [List.mem_toFinset, List.mem_map, List.mem_filter,
      Finset.mem_filter, decide_eq_true_eq]
    constructor
    · rintro ⟨e, ⟨he, hJe, _⟩, rfl⟩
      exact ⟨mem_personsOf.mpr ⟨e, he, rfl⟩, hJe⟩
    · rintro ⟨hp, hJp⟩
      obtain ⟨e, he, hep, hme⟩ := joinMonth_attended hJp
      refine ⟨e, ⟨he, ?_, ?_⟩, hep⟩
      · rw [hep]; exact hJp
      · unfold monthOffset
        rw [hep, hJp, hme]
        simp
  have hcell : cohortCell recs J 0 = cohortSize recs J := by
    unfold cohortCell cohortSize
    rw [hset]
  refine ⟨hcell, ?_⟩
  obtain ⟨p, hp, hJp⟩ := hJ
  have hpos : 0 < cohortSize recs J := by
    unfold cohortSize
    exact Finset.card_pos.mpr ⟨p, Finset.mem_filter.mpr ⟨hp, hJp⟩⟩
  unfold cohortRate
  rw [hcell]
  have hne : (cohortSize recs J : ℚ) ≠ 0 := by
    exact_mod_cast Nat.pos_iff_ne_zero.mp hpos
  rw [div_self hne, one_mul]

/-- Witness for C4 at a concrete record set where person 1 joins in
month 0. -/
theorem cohort_offset_zero_eq_size_witness :
    (∃ p ∈ personsOf [Event.mk 1 ⟨0, 1⟩, Event.mk 1 ⟨1, 2⟩, Event.mk 2 ⟨1, 5⟩],
        joinMonth [Event.mk 1 ⟨0, 1⟩, Event.mk 1 ⟨1, 2⟩, Event.mk 2 ⟨1, 5⟩] p =
          some 0) ∧
    cohortCell [Event.mk 1 ⟨0, 1⟩, Event.mk 1 ⟨1, 2⟩, Event.mk 2 ⟨1, 5⟩] 0 0 =
      cohortSize [Event.mk 1 ⟨0, 1⟩, Event.mk 1 ⟨1, 2⟩, Event.mk 2 ⟨1, 5⟩] 0 ∧
    cohortRate [Event.mk 1 ⟨0, 1⟩, Event.mk 1 ⟨1, 2⟩, Event.mk 2 ⟨1, 5⟩] 0 0 =
      100 :=
  ⟨by decide,
   (cohort_offset_zero_eq_size _ 0 (by decide)).1,
   (cohort_offset_zero_eq_size _ 0 (by decide)).2⟩

/-! ## `retention-trend.py` — rolling retention of new joiners

Lines 109–131: `month_groups = df.groupby("Month")["Attendee ID"].apply(set)`
sorted by month; then for each `i` in `range(1, len(months))` the loop forms
`prev_joiners_only = month_groups[months[i-1]] − union(month_groups[:i-1])`,
`retained = prev_joiners_only ∩ month_groups[months[i]]`, the retention and
dropout rates, and appends one result row. -/

theorem mem_monthsList {recs : List Event} {m : Nat} :
    m ∈ monthsList recs ↔ ∃ e ∈ recs, monthOf e = m := by
  unfold monthsList
  rw [(List.perm_insertionSort _ _).mem_iff, List.mem_dedup]
  simp only [List.mem_map]

theorem monthsList_sorted_lt (recs : List Event) :
    (monthsList recs).Sorted (· < ·) :=
  (List.sorted_insertionSort _ _).lt_of_le
    ((List.perm_insertionSort _ _).nodup_iff.mpr (List.nodup_dedup _))

/-- Membership in a prefix of the sorted month list is equivalent to being an
observed month strictly below the month at the cut position. -/
theorem mem_take_monthsList {recs : List Event} {j m : Nat}
    (hj : j < (monthsList recs).length) :
    m ∈ (monthsList recs).take j ↔
      m ∈ monthsList recs ∧ m < (monthsList recs).get ⟨j, hj⟩ := by
  have hsort := monthsList_sorted_lt recs
  simp only [List.get_eq_getElem]
  constructor
  · intro hm
    obtain ⟨a, ha, hget⟩ := List.getElem_of_mem hm
    have ha' : a < j := by
      rw [List.length_take] at ha
      omega
    have haj : a < (monthsList recs).length := by omega
    rw [List.getElem_take] at hget
    refine ⟨hget ▸ List.getElem_mem haj, ?_⟩
    have hrel := hsort.rel_get_of_lt (a := ⟨a, haj⟩) (b := ⟨j, hj⟩)
      (Fin.mk_lt_mk.mpr ha')
    simp only [List.get_eq_getElem] at hrel
    omega
  · rintro ⟨hm, hlt⟩
    obtain ⟨a, ha, hget⟩ := List.getElem_of_mem hm
    have haj : a < j := by
      by_contra hc
      push_neg at hc
      rcases Nat.eq_or_lt_of_le hc with heq | hja
      · subst heq
        rw [← hget] at hlt
        exact absurd hlt (lt_irrefl _)
      · have hrel := hsort.rel_get_of_lt (a := ⟨j, hj⟩) (b := ⟨a, ha⟩)
          (Fin.mk_lt_mk.mpr hja)
        simp only [List.get_eq_getElem] at hrel
        omega
    have hlen : a < ((monthsList recs).take j).length := by
      rw [List.length_take]; omega
    have hmem : ((monthsList recs).take j).get ⟨a, hlen⟩ = m := by
      simp only [List.get_eq_getElem, List.getElem_take]
      exact hget
    exact hmem ▸ List.get_mem _ _ _

/-- `set().union(*month_groups.iloc[:j])`: the union of the active-person
sets of the first `j` months of the sorted month list. -/
def unionBefore (recs : List Event) (j : Nat) : Finset Nat :=
  ((monthsList recs).take j).foldl (fun acc m => acc ∪ activeIn recs m) ∅

theorem foldl_union_mem (l : List Nat) (acc : Finset Nat)
    (recs : List Event) (p : Nat) :
    p ∈ l.foldl (fun a m => a ∪ activeIn recs m) acc ↔
      p ∈ acc ∨ ∃ m ∈ l, p ∈ activeIn recs m := by
  induction l generalizing acc with
  | nil => simp
  | cons b bs ih =>
    simp only [List.foldl_cons, ih, Finset.mem_union, List.mem_cons]
    constructor
    · rintro ((h | h) | ⟨m, hm, hpm⟩)
      · exact Or.inl h
      · exact Or.inr ⟨b, Or.inl rfl, h⟩
      · exact Or.inr ⟨m, Or.inr hm, hpm⟩
    · rintro (h | ⟨m, rfl | hm, hpm⟩)
      · exact Or.inl (Or.inl h)
      · exact Or.inl (Or.inr hpm)
      · exact Or.inr ⟨m, hm, hpm⟩

theorem mem_unionBefore {recs : List Event} {j p : Nat} :
    p ∈ unionBefore recs j ↔
      ∃ m ∈ (monthsList recs).take j, p ∈ activeIn recs m := by
  unfold unionBefore
  rw [foldl_union_mem]
  simp

/-- One output row of the rolling-retention loop. -/
structure TrendRow where
  month : Nat
  joiners : Finset Nat
  retained : Finset Nat
  retentionRate : ℚ
  dropoutRate : ℚ
deriving DecidableEq

instance : Inhabited TrendRow := ⟨⟨0, ∅, ∅, 0, 0⟩⟩

/-- `prev_joiners_only` at loop index `i`:
`month_groups[months[i-1]] − set().union(*month_groups.iloc[:i-1])`. -/
def trendJoiners (recs : List Event) (i : Nat) : Finset Nat :=
  activeIn recs ((monthsList recs).getD (i - 1) 0) \ unionBefore recs (i - 1)

/-- `retained` at loop index `i`: `prev_joiners_only & curr_set`. -/
def trendRetained (recs : List Event) (i : Nat) : Finset Nat :=
  trendJoiners recs i ∩ activeIn recs ((monthsList recs).getD i 0)

/-- `retention_rate` at loop index `i`:
`(len(retained) / prev_total) * 100 if prev_total > 0 else 0.0`. -/
def trendRate (recs : List Event) (i : Nat) : ℚ :=
  if 0 < (trendJoiners recs i).card then
    ((trendRetained recs i).card : ℚ) / ((trendJoiners recs i).card : ℚ) * 100
  else 0

/-- The loop body at index `i` (`prior = months[i-1]`, `current = months[i]`):
the appended result row, with `dropout_rate = 100 − retention_rate`. -/
def trendRowAt (recs : List Event) (i : Nat) : TrendRow :=
  { month := (monthsList recs).getD i 0,
    joiners := trendJoiners recs i,
    retained := trendRetained recs i,
    retentionRate := trendRate recs i,
    dropoutRate := 100 - trendRate recs i }

/-- The rolling-retention output: one row per transition,
`for i in range(1, len(months))`. -/
def rollingRows (recs : List Event) : List TrendRow :=
  (List.range ((monthsList recs).length - 1)).map
    (fun j => trendRowAt recs (j + 1))

/-- The joiner cohort of a transition is exactly the set of persons whose
first-ever record falls in the prior month. -/
theorem joiners_eq_first_time (recs : List Event) (i : Nat)
    (h1 : 1 ≤ i) (hi : i < (monthsList recs).length) :
    (trendRowAt recs i).joiners =
      (personsOf recs).filter
        (fun p => joinMonth recs p = some ((monthsList recs).getD (i - 1) 0)) := by
  have hi1 : i - 1 < (monthsList recs).length := by omega
  have hgetD : (monthsList recs).getD (i - 1) 0 =
      (monthsList recs).get ⟨i - 1, hi1⟩ := by
    rw [List.getD_eq_getElem _ _ hi1]
    simp
  set prior := (monthsList recs).getD (i - 1) 0 with hprior
  ext p
  show p ∈ activeIn recs prior \ unionBefore recs (i - 1) ↔ _
  simp only [Finset.mem_sdiff, Finset.mem_filter, mem_unionBefore]
  constructor
  · rintro ⟨hact, hnone⟩
    obtain ⟨e, he, hep, hme⟩ := mem_activeIn.mp hact
    have hp : p ∈ personsOf recs := mem_personsOf.mpr ⟨e, he, hep⟩
    obtain ⟨J, hJ⟩ := joinMonth_of_mem hp
    have hJle : J ≤ prior := hme ▸ joinMonth_le hJ e he hep
    refine ⟨hp, ?_⟩
    rw [hJ]
    congr 1
    by_contra hne
    have hJlt : J < prior := lt_of_le_of_ne hJle hne
    obtain ⟨e', he', hpe', hme'⟩ := joinMonth_attended hJ
    have hJmem : J ∈ monthsList recs := mem_monthsList.mpr ⟨e', he', hme'⟩
    have hJtake : J ∈ (monthsList recs).take (i - 1) :=
      (mem_take_monthsList hi1).mpr ⟨hJmem, by rw [← hgetD]; exact hJlt⟩
    exact hnone ⟨J, hJtake, mem_activeIn.mpr ⟨e', he', hpe', hme'⟩⟩
  · rintro ⟨hp, hJ⟩
    obtain ⟨e, he, hep, hme⟩ := joinMonth_attended hJ
    refine ⟨mem_activeIn.mpr ⟨e, he, hep, hme⟩, ?_⟩
    rintro ⟨m, hmtake, hpm⟩
    obtain ⟨hmm, hmlt⟩ := (mem_take_monthsList hi1).mp hmtake
    obtain ⟨e', he', hpe', hme'⟩ := mem_activeIn.mp hpm
    have := joinMonth_le hJ e' he' hpe'
    rw [hme'] at this
    rw [← hgetD] at hmlt
    omega

/-- C1 — Rolling new-joiner retention: for every record set, the loop emits
exactly one row per consecutive window transition (the first window is
excluded); for every transition index `i` the row is `trendRowAt recs i`,
whose joiner cohort equals the persons whose first-ever record falls in the
prior window — equivalently, active-in-prior minus the union of the active
sets of all earlier windows — whose retained set is the joiner cohort
intersected with the persons active in the current window, and whose month
field is the current window. -/
theorem rolling_new_joiner_retention (recs : List Event) (i : Nat)
    (h1 : 1 ≤ i) (hi : i < (monthsList recs).length) :
    (rollingRows recs).length = (monthsList recs).length - 1 ∧
    (rollingRows recs).getD (i - 1) default = trendRowAt recs i ∧
    (trendRowAt recs i).month = (monthsList recs).getD i 0 ∧
    (trendRowAt recs i).joiners =
      activeIn recs ((monthsList recs).getD (i - 1) 0) \
        unionBefore recs (i - 1) ∧
    (trendRowAt recs i).joiners =
      (personsOf recs).filter
        (fun p => joinMonth recs p = some ((monthsList recs).getD (i - 1) 0)) ∧
    (trendRowAt recs i).retained =
      (trendRowAt recs i).joiners ∩
        activeIn recs ((monthsList recs).getD i 0) := by
  refine ⟨by simp [rollingRows], ?_, rfl, rfl, joiners_eq_first_time recs i h1 hi, rfl⟩
  have hlen : i - 1 < (rollingRows recs).length := by
    simp only [rollingRows, List.length_map, List.length_range]
    omega
  rw [List.getD_eq_getElem _ _ hlen]
  simp only [rollingRows, List.getElem_map, List.getElem_range]
  congr 1
  omega

/-- A sample record set with two months, where person 1 joins in month 0 and
returns in month 1, and person 2 joins in month 1. -/
def sampleTrend : List Event :=
  [⟨1, ⟨0, 1⟩⟩, ⟨2, ⟨1, 1⟩⟩, ⟨1, ⟨1, 2⟩⟩]

/-- Witness for C1 at `sampleTrend`, transition index 1. -/
theorem rolling_new_joiner_retention_witness :
    (rollingRows sampleTrend).length = (monthsList sampleTrend).length - 1 ∧
    (rollingRows sampleTrend).getD 0 default = trendRowAt sampleTrend 1 ∧
    (trendRowAt sampleTrend 1).month = (monthsList sampleTrend).getD 1 0 ∧
    (trendRowAt sampleTrend 1).joiners =
      activeIn sampleTrend ((monthsList sampleTrend).getD 0 0) \
        unionBefore sampleTrend 0 ∧
    (trendRowAt sampleTrend 1).joiners =
      (personsOf sampleTrend).filter
        (fun p =>
          joinMonth sampleTrend p = some ((monthsList sampleTrend).getD 0 0)) ∧
    (trendRowAt sampleTrend 1).retained =
      (trendRowAt sampleTrend 1).joiners ∩
        activeIn sampleTrend ((monthsList sampleTrend).getD 1 0) :=
  rolling_new_joiner_retention sampleTrend 1 (by decide) (by decide)

/-- C7 — Empty joiner cohort policy: for every record set and every output
row of the rolling new-joiner retention loop, if the joiner cohort is empty
then the retention rate is exactly 0 and the dropout rate is exactly 100;
in all cases the dropout rate is 100 minus the retention rate. -/
theorem rolling_empty_joiner_policy (recs : List Event) (row : TrendRow)
    (hrow : row ∈ rollingRows recs) :
    (row.joiners = ∅ → row.retentionRate = 0 ∧ row.dropoutRate = 100) ∧
    row.dropoutRate = 100 - row.retentionRate := by
  simp only [rollingRows, List.mem_map, List.mem_range] at hrow
  obtain ⟨j, hj, rfl⟩ := hrow
  refine ⟨?_, rfl⟩
  intro hempty
  have hcard : (trendJoiners recs (j + 1)).card = 0 := by
    have hJ : trendJoiners recs (j + 1) = ∅ := hempty
    rw [hJ, Finset.card_empty]
  have h0 : trendRate recs (j + 1) = 0 := by
    unfold trendRate
    rw [hcard]
    simp
  refine ⟨h0, ?_⟩
  show 100 - trendRate recs (j + 1) = 100
  rw [h0]
  norm_num

/-- A sample record set with three months, all attended by person 1 only, so
the second transition's joiner cohort (new joiners of month 1) is empty. -/
def sampleTrend2 : List Event :=
  [⟨1, ⟨0, 1⟩⟩, ⟨1, ⟨1, 1⟩⟩, ⟨1, ⟨2, 1⟩⟩]

/-- Witness for C7 at `sampleTrend2`, whose second output row has an empty
joiner cohort. -/
theorem rolling_empty_joiner_policy_witness :
    trendRowAt sampleTrend2 2 ∈ rollingRows sampleTrend2 ∧
    (trendRowAt sampleTrend2 2).joiners = ∅ ∧
    (trendRowAt sampleTrend2 2).retentionRate = 0 ∧
    (trendRowAt sampleTrend2 2).dropoutRate = 100 ∧
    (trendRowAt sampleTrend2 2).dropoutRate =
      100 - (trendRowAt sampleTrend2 2).retentionRate := by
  have hmem : trendRowAt sampleTrend2 2 ∈ rollingRows sampleTrend2 :=
    List.mem_map.mpr ⟨1, List.mem_range.mpr (by decide), rfl⟩
  have h := rolling_empty_joiner_policy sampleTrend2 (trendRowAt sampleTrend2 2)
    hmem
  have hemp : (trendRowAt sampleTrend2 2).joiners = ∅ := rfl
  obtain ⟨h1, h2⟩ := h
  obtain ⟨h3, h4⟩ := h1 hemp
  exact ⟨hmem, hemp, h3, h4, h2⟩

/-! ## `retention-trend.py` — monthly churn trend

Lines 72–82: distinct attendees per month (`ActiveParticipants`), sorted by
month; `ChurnRate = (1 − Active/PrevMonth) * 100`, then `.fillna(0)` (the
first month has no prior, `shift(1)` gives `NaN`) and `.clip(lower=0)`. -/

/-- The `ActiveParticipants` column: distinct attendees per observed month,
in chronological order. -/
def monthlyActiveCounts (recs : List Event) : List ℚ :=
  (monthsList recs).map (fun m => ((activeIn recs m).card : ℚ))

/-- The `ChurnRate` column after `fillna(0)` and `clip(lower=0)`: row 0 (no
prior month) is 0, and row `i ≥ 1` is
`max 0 ((1 − Active_i / Active_(i−1)) * 100)`. -/
def churnRates (recs : List Event) : List ℚ :=
  (List.range (monthlyActiveCounts recs).length).map (fun i =>
    if i = 0 then 0
    else max 0 ((1 - (monthlyActiveCounts recs).getD i 0 /
                     (monthlyActiveCounts recs).getD (i - 1) 0) * 100))

/-- Every observed month has at least one active participant. -/
theorem monthlyActiveCounts_one_le {recs : List Event} {q : ℚ}
    (hq : q ∈ monthlyActiveCounts recs) : 1 ≤ q := by
  unfold monthlyActiveCounts at hq
  obtain ⟨m, hm, rfl⟩ := List.mem_map.mp hq
  obtain ⟨e, he, hme⟩ := mem_monthsList.mp hm
  have : e.person ∈ activeIn recs m := mem_activeIn.mpr ⟨e, he, rfl, hme⟩
  have hpos : 0 < (activeIn recs m).card := Finset.card_pos.mpr ⟨_, this⟩
  exact_mod_cast hpos

theorem churnRates_getD (recs : List Event) (i : Nat)
    (hi : i < (churnRates recs).length) :
    (churnRates recs).getD i 0 =
      if i = 0 then 0
      else max 0 ((1 - (monthlyActiveCounts recs).getD i 0 /
                       (monthlyActiveCounts recs).getD (i - 1) 0) * 100) := by
  have hi' : i < (List.range (monthlyActiveCounts recs).length).length := by
    simpa [churnRates] using hi
  rw [List.getD_eq_getElem _ _ hi]
  simp only [churnRates, List.getElem_map, List.getElem_range]

/-- C10 — Monthly churn-rate trend: every reported churn value is
non-negative; the first observed month (no prior month) is reported as 0;
and a month-over-month increase in active participants — which would give a
negative raw churn rate — is clipped and reported as 0. -/
theorem churn_rate_nonneg_clipped (recs : List Event) (i : Nat)
    (hi : i < (churnRates recs).length) :
    0 ≤ (churnRates recs).getD i 0 ∧
    (i = 0 → (churnRates recs).getD i 0 = 0) ∧
    (1 ≤ i →
      (monthlyActiveCounts recs).getD (i - 1) 0 <
          (monthlyActiveCounts recs).getD i 0 →
        (churnRates recs).getD i 0 = 0) := by
  refine ⟨?_, ?_, ?_⟩
  · rw [churnRates_getD recs i hi]
    by_cases h0 : i = 0
    · simp [h0]
    · rw [if_neg h0]
      exact le_max_left _ _
  · intro h0
    rw [churnRates_getD recs i hi, if_pos h0]
  · intro h1 hinc
    rw [churnRates_getD recs i hi, if_neg (by omega)]
    have hlen : (churnRates recs).length = (monthlyActiveCounts recs).length := by
      simp [churnRates]
    have hi1 : i - 1 < (monthlyActiveCounts recs).length := by omega
    have hprev : (monthlyActiveCounts recs).getD (i - 1) 0 ∈
        monthlyActiveCounts recs := by
      rw [List.getD_eq_getElem _ _ hi1]
      exact List.getElem_mem hi1
    have hprev1 : 1 ≤ (monthlyActiveCounts recs).getD (i - 1) 0 :=
      monthlyActiveCounts_one_le hprev
    have hraw : (1 - (monthlyActiveCounts recs).getD i 0 /
        (monthlyActiveCounts recs).getD (i - 1) 0) * 100 < 0 := by
      have hprev0 : 0 < (monthlyActiveCounts recs).getD (i - 1) 0 := by linarith
      have : 1 < (monthlyActiveCounts recs).getD i 0 /
          (monthlyActiveCounts recs).getD (i - 1) 0 :=
        (one_lt_div hprev0).mpr hinc
      nlinarith
    exact max_eq_left (le_of_lt hraw)

/-- Witness for C10 at `sampleTrend2` extended with a second person in
month 1 (an increase from month 0), checking the first row is 0 and the
increasing transition is clipped to 0. -/
theorem churn_rate_nonneg_clipped_witness :
    (churnRates [Event.mk 1 ⟨0, 1⟩, Event.mk 1 ⟨1, 1⟩, Event.mk 2 ⟨1, 5⟩]).getD 0 0 = 0 ∧
    0 ≤ (churnRates [Event.mk 1 ⟨0, 1⟩, Event.mk 1 ⟨1, 1⟩, Event.mk 2 ⟨1, 5⟩]).getD 1 0 ∧
    (churnRates [Event.mk 1 ⟨0, 1⟩, Event.mk 1 ⟨1, 1⟩, Event.mk 2 ⟨1, 5⟩]).getD 1 0 = 0 :=
  ⟨(churn_rate_nonneg_clipped _ 0 (by decide)).2.1 rfl,
   (churn_rate_nonneg_clipped _ 1 (by decide)).1,
   (churn_rate_nonneg_clipped _ 1 (by decide)).2.2 (by decide) (by decide)⟩

/-! ## `Engagement_Analysis.py` — schema validation and weekly bucketing

Module level, lines 13–39.  Dates here are serial day numbers whose epoch is
a Monday, so `Date.dt.dayofweek = date % 7` with `0 = Monday`, and
`Week = Date − to_timedelta(dayofweek, unit="d")` is the serial number of the
week's Monday. -/

/-- One attendance row as `Engagement_Analysis.py` uses it: an `Attendee ID`
and a serial-day `Date` (epoch on a Monday). -/
structure ERec where
  person : Nat
  date : Nat
deriving DecidableEq, Repr

/-- `Date.dt.dayofweek`: 0 = Monday, …, 5 = Saturday, 6 = Sunday. -/
def dayOfWeek (d : Nat) : Nat := d % 7

/-- Line 31: `df = df[df["Date"].dt.dayofweek < 5]` — drop weekend rows
before any weekly bucketing. -/
def workdayFilter (recs : List ERec) : List ERec :=
  recs.filter (fun r => dayOfWeek r.date < 5)

/-- Line 32: `df["Week"] = df["Date"] − to_timedelta(dayofweek, unit="d")` —
the bucket key of a record's date. -/
def weekOf (d : Nat) : Nat := d - dayOfWeek d

/-- The records landing in weekly bucket `w` (the group of
`df.groupby(["Attendee ID", "Week"])` rows with `Week = w`, person ignored). -/
def bucketMembers (recs : List ERec) (w : Nat) : List ERec :=
  (workdayFilter recs).filter (fun r => weekOf r.date = w)

/-- A second definition following the claim's words: `m` is the most recent
Monday on or before `d` (Mondays are exactly the serial days ≡ 0 mod 7). -/
def isMostRecentMonday (m d : Nat) : Prop :=
  m % 7 = 0 ∧ m ≤ d ∧ ∀ m', m' % 7 = 0 → m' ≤ d → m' ≤ m

/-- C6 — Weekend exclusion in weekly bucketing: the weekday filter keeps
exactly the records whose day-of-week index is < 5 (Saturday/Sunday rows,
index ≥ 5, are dropped before bucketing); every surviving record's bucket
key is the most recent Monday on or before its date; and no bucket ever
contains a record whose source date falls on Saturday or Sunday. -/
theorem weekly_weekend_exclusion (recs : List ERec) (r : ERec) :
    (r ∈ workdayFilter recs ↔ r ∈ recs ∧ dayOfWeek r.date < 5) ∧
    (r ∈ workdayFilter recs → isMostRecentMonday (weekOf r.date) r.date) ∧
    (∀ w, r ∈ bucketMembers recs w → ¬ 5 ≤ dayOfWeek r.date) := by
  have hfilter : r ∈ workdayFilter recs ↔ r ∈ recs ∧ dayOfWeek r.date < 5 := by
    unfold workdayFilter
    rw [List.mem_filter]
    simp
  refine ⟨hfilter, ?_, ?_⟩
  · intro _
    unfold isMostRecentMonday weekOf dayOfWeek
    refine ⟨by omega, by omega, ?_⟩
    intro m' hm' hle
    omega
  · intro w hw
    unfold bucketMembers at hw
    rw [List.mem_filter] at hw
    have := hfilter.mp hw.1
    omega

/-- Witness for C6 at a two-record set (Monday day 0 kept, Saturday day 5
dropped), instantiated at the kept record and bucket 0. -/
theorem weekly_weekend_exclusion_witness :
    (ERec.mk 1 0 ∈ workdayFilter [ERec.mk 1 0, ERec.mk 1 5] ↔
      ERec.mk 1 0 ∈ [ERec.mk 1 0, ERec.mk 1 5] ∧ dayOfWeek 0 < 5) ∧
    isMostRecentMonday (weekOf 0) 0 ∧
    ¬ 5 ≤ dayOfWeek 0 :=
  ⟨(weekly_weekend_exclusion [ERec.mk 1 0, ERec.mk 1 5] (ERec.mk 1 0)).1,
   (weekly_weekend_exclusion [ERec.mk 1 0, ERec.mk 1 5] (ERec.mk 1 0)).2.1
     (by decide),
   (weekly_weekend_exclusion [ERec.mk 1 0, ERec.mk 1 5] (ERec.mk 1 0)).2.2 0
     (by decide)⟩

/-- Required identifying columns of the source sheet (line 14:
`required = {"Attendee ID", "Activity ID", "Date"}`). -/
def requiredCols : List String := ["Attendee ID", "Activity ID", "Date"]

/-- An input table: its column names, and its rows decoded into the fields
the engagement pipeline uses. -/
structure Frame where
  cols : List String
  rows : List ERec
deriving DecidableEq

/-- Load-time schema validation (lines 13–16):
`if not required.issubset(df.columns): raise ValueError(...)` — the
`MissingColumns` error of the spec's taxonomy, aborting the run. -/
def loadValidated (f : Frame) : Except String Frame :=
  if requiredCols.all (fun c => f.cols.contains c) then Except.ok f
  else Except.error "MissingColumns"

/-- `df["Date"].max()` over the rows, 0 for an empty table. -/
def maxDateE (recs : List ERec) : Nat :=
  (recs.map ERec.date).foldl max 0

/-- Lines 23–25: keep the trailing two months,
`df[df["Date"] >= max_date - timedelta(days=60)]`. -/
def lastTwoMonths (recs : List ERec) : List ERec :=
  recs.filter (fun r => maxDateE recs - 60 ≤ r.date)

/-- Days attended by person `p` in week `w`:
`groupby(["Attendee ID", "Week"])["Date"].nunique()`, then `.clip(upper=5)`
(lines 34–39). -/
def daysAttended (recs : List ERec) (p w : Nat) : Nat :=
  min 5 (((recs.filter (fun r => r.person = p ∧ weekOf r.date = w)).map
    ERec.date).toFinset.card)

/-- The weekly engagement table (lines 23–39): 60-day filter, deduplication
on `(Attendee ID, Date)`, weekday filter, then one entry per present
`(Attendee ID, Week)` key with the clipped distinct-day count. -/
def weeklyTable (recs : List ERec) : List ((Nat × Nat) × Nat) :=
  (((workdayFilter
      (dropDuplicates (fun r : ERec => (r.person, r.date))
        (lastTwoMonths recs))).map
        (fun r => (r.person, weekOf r.date))).dedup).map
    (fun k =>
      (k, daysAttended
        (workdayFilter
          (dropDuplicates (fun r : ERec => (r.person, r.date))
            (lastTwoMonths recs))) k.1 k.2))

/-- The whole module as a pipeline: validate the schema once at load, then
aggregate; the aggregation is total on the validated frame's rows and never
re-checks column presence. -/
def engagementPipeline (f : Frame) :
    Except String (List ((Nat × Nat) × Nat)) :=
  (loadValidated f).map (fun g => weeklyTable g.rows)

/-- C9 — MissingColumns validation: for every input table, if any required
column (`Attendee ID`, `Activity ID`, `Date`) is absent the pipeline fails
at load with the `MissingColumns` error and no aggregation runs; if all
required columns are present the load validates once and the downstream
aggregation runs unconditionally on the rows, with no further column
check. -/
theorem missing_columns_validation (f : Frame) :
    ((∃ c ∈ requiredCols, c ∉ f.cols) →
      engagementPipeline f = Except.error "MissingColumns") ∧
    ((∀ c ∈ requiredCols, c ∈ f.cols) →
      engagementPipeline f = Except.ok (weeklyTable f.rows)) := by
  have hall : (requiredCols.all (fun c => f.cols.contains c) = true) ↔
      ∀ c ∈ requiredCols, c ∈ f.cols := by
    simp only [List.all_eq_true, List.contains_eq_any_beq, List.any_beq,
      List.elem_iff]
  constructor
  · rintro ⟨c, hc, hnot⟩
    unfold engagementPipeline loadValidated
    rw [if_neg (fun h => hnot (hall.mp h c hc))]
    rfl
  · intro hcols
    unfold engagementPipeline loadValidated
    rw [if_pos (hall.mpr hcols)]
    rfl

/-- Witness for C9: a frame missing `Activity ID` and `Date` fails with
`MissingColumns`; a frame with all required columns aggregates its rows. -/
theorem missing_columns_validation_witness :
    engagementPipeline ⟨["Attendee ID"], []⟩ =
      Except.error "MissingColumns" ∧
    engagementPipeline ⟨requiredCols, [ERec.mk 1 0]⟩ =
      Except.ok (weeklyTable [ERec.mk 1 0]) :=
  ⟨(missing_columns_validation ⟨["Attendee ID"], []⟩).1
     ⟨"Activity ID", by decide, by decide⟩,
   (missing_columns_validation ⟨requiredCols, [ERec.mk 1 0]⟩).2 (by decide)⟩

/-! ## `pyqt5UI-chart-with-map.py` — threshold-based monthly retention

`RetentionApp.calc_retention` (lines 184–207) and
`RetentionApp.generate_excel` (lines 209–224).  This frame keeps raw rows
(no deduplication): the per-month `size` aggregation counts sessions. -/

/-- One row as the UI script uses it: `Attendee ID`, `Date`,
`Activity type`. -/
structure PRow where
  person : Nat
  date : Date
  activity : String
deriving DecidableEq, Repr

/-- `latest_date = self.df["Date"].max()` — over the full frame. -/
def latestDate (df : List PRow) : Date :=
  (df.map PRow.date).foldl dateMax ⟨0, 0⟩

/-- `cutoff = latest_date - pd.DateOffset(months=2)`: two calendar months
back, same day of month (pandas clamps the day for shorter target months;
the abstract day carries over unchanged). -/
def cutoffDate (df : List PRow) : Date :=
  ⟨(latestDate df).ym - 2, (latestDate df).day⟩

/-- Dates of one person's rows in the UI frame. -/
def pDatesOf (df : List PRow) (p : Nat) : List Date :=
  (df.filter (fun r => r.person = p)).map PRow.date

/-- Does the person's first-ever record predate the cutoff?
(`eligible = df.groupby("Attendee ID")["Date"].min()`, then the
`eligible < cutoff` mask). -/
def firstBefore (df : List PRow) (p : Nat) : Bool :=
  match minDateOf (pDatesOf df p) with
  | some d => decide (dateLt d (cutoffDate df))
  | none => false

/-- `eligible_ids = eligible[eligible < cutoff].index`. -/
def eligibleIds (df : List PRow) : Finset Nat :=
  ((df.map PRow.person).toFinset).filter (fun p => firstBefore df p = true)

/-- `df_eligible = self.df[self.df["Attendee ID"].isin(eligible_ids)]`. -/
def dfEligible (df : List PRow) : List PRow :=
  df.filter (fun r => r.person ∈ eligibleIds df)

/-- Session count of person `p` in month `m` within the eligible frame: the
`size` aggregation of `groupby(["Attendee ID", "Month"])`. -/
def monthCount (df : List PRow) (p m : Nat) : Nat :=
  (dfEligible df).countP (fun r => r.person = p ∧ r.date.ym = m)

/-- The `month_counts` table: one entry `((p, m), n)` per distinct
`(Attendee ID, Month)` pair present in the eligible frame, with its size. -/
def monthCountsTable (df : List PRow) : List ((Nat × Nat) × Nat) :=
  (((dfEligible df).map (fun r => (r.person, r.date.ym))).dedup).map
    (fun k => (k, monthCount df k.1 k.2))

/-- `latest = month_counts["Month"].max()` (0 for an empty table). -/
def latestMonth (df : List PRow) : Nat :=
  ((monthCountsTable df).map (fun e => e.1.2)).foldl max 0

/-- `prev = latest - 1`. -/
def prevMonth (df : List PRow) : Nat := latestMonth df - 1

/-- `active_last_two = set(month_counts[month_counts["Month"].isin([prev,
latest])]["Attendee ID"])`. -/
def activeLastTwo (df : List PRow) : Finset Nat :=
  (((monthCountsTable df).filter
      (fun e => e.1.2 = prevMonth df ∨ e.1.2 = latestMonth df)).map
    (fun e => e.1.1)).toFinset

/-- `retained`: attendees with a table row of count ≥ T in the latest month,
intersected with those with a table row of count ≥ T in the previous month
(lines 196–200). -/
def retainedAt (df : List PRow) (T : Nat) : Finset Nat :=
  ((((monthCountsTable df).filter
      (fun e => e.1.2 = latestMonth df ∧ T ≤ e.2)).map
    (fun e => e.1.1)).toFinset) ∩
  ((((monthCountsTable df).filter
      (fun e => e.1.2 = prevMonth df ∧ T ≤ e.2)).map
    (fun e => e.1.1)).toFinset)

/-- `pct = len(retained) / len(active_last_two) * 100 if len(active_last_two)
> 0 else 0` (the UI then rounds to two decimals for display; we keep the
unrounded rational). -/
def retentionPct (df : List PRow) (T : Nat) : ℚ :=
  if 0 < (activeLastTwo df).card then
    ((retainedAt df T).card : ℚ) / ((activeLastTwo df).card : ℚ) * 100
  else 0

/-- Claim-side formulation: eligible persons with at least one record in the
previous or the latest monthly window. -/
def specActiveLastTwo (df : List PRow) : Finset Nat :=
  (eligibleIds df).filter
    (fun p => 0 < monthCount df p (prevMonth df) ∨
      0 < monthCount df p (latestMonth df))

/-- Claim-side formulation: eligible persons whose record count is at least
`T` in both the previous and the latest monthly window. -/
def specRetained (df : List PRow) (T : Nat) : Finset Nat :=
  (eligibleIds df).filter
    (fun p => T ≤ monthCount df p (prevMonth df) ∧
      T ≤ monthCount df p (latestMonth df))

theorem mem_dfEligible {df : List PRow} {r : PRow} :
    r ∈ dfEligible df ↔ r ∈ df ∧ r.person ∈ eligibleIds df := by
  unfold dfEligible
  rw [List.mem_filter]
  simp

/-- Table semantics: an entry `((p, m), n)` is in `month_counts` iff the
`(p, m)` key occurs in the eligible frame and `n` is its session count. -/
theorem mem_monthCountsTable {df : List PRow} {p m n : Nat} :
    ((p, m), n) ∈ monthCountsTable df ↔
      0 < monthCount df p m ∧ n = monthCount df p m := by
  unfold monthCountsTable
  simp only [List.mem_map, List.mem_dedup, Prod.mk.injEq]
  constructor
  · rintro ⟨k, hk, hk1, hk2⟩
    obtain ⟨r, hr, hkey⟩ := hk
    subst hk1
    refine ⟨?_, hk2.symm⟩
    simp only [Prod.mk.injEq] at hkey
    rw [monthCount]
    apply List.countP_pos_iff.mpr
    refine ⟨r, hr, ?_⟩
    simp only [decide_eq_true_eq]
    exact ⟨hkey.1, hkey.2⟩
  · rintro ⟨hpos, rfl⟩
    have hpos' := hpos
    rw [monthCount] at hpos'
    obtain ⟨r, hr, hpred⟩ := List.countP_pos_iff.mp hpos'
    simp only [decide_eq_true_eq] at hpred
    refine ⟨(p, m), ⟨r, hr, ?_⟩, rfl, rfl⟩
    rw [hpred.1, hpred.2]

/-- Any attendee appearing in the `month_counts` table is eligible. -/
theorem table_person_eligible {df : List PRow} {p m n : Nat}
    (h : ((p, m), n) ∈ monthCountsTable df) : p ∈ eligibleIds df := by
  obtain ⟨hpos, _⟩ := mem_monthCountsTable.mp h
  rw [monthCount] at hpos
  obtain ⟨r, hr, hpred⟩ := List.countP_pos_iff.mp hpos
  simp only [decide_eq_true_eq] at hpred
  exact hpred.1 ▸ (mem_dfEligible.mp hr).2

/-- C2 — Threshold-based monthly retention: for every data frame and every
session-count threshold `T ≥ 1` (the UI offers 1–10), the calculator's
`active_last_two` is exactly the set of eligible persons (first-ever record
before the latest observed date minus two calendar months) with at least
one record in the previous or the latest monthly window, its `retained` is
exactly the set of eligible persons with record count ≥ T in both windows,
and the reported percentage is `|retained| / |active_last_two| × 100`, 0
when the denominator is 0. -/
theorem threshold_monthly_retention (df : List PRow) (T : Nat)
    (hT : 1 ≤ T) :
    activeLastTwo df = specActiveLastTwo df ∧
    retainedAt df T = specRetained df T ∧
    retentionPct df T =
      (if (specActiveLastTwo df).card = 0 then 0
       else ((specRetained df T).card : ℚ) /
         ((specActiveLastTwo df).card : ℚ) * 100) := by
  have hactive : activeLastTwo df = specActiveLastTwo df := by
    ext p
    unfold activeLastTwo specActiveLastTwo
    simp only [List.mem_toFinset, List.mem_map, List.mem_filter,
      Finset.mem_filter, decide_eq_true_eq]
    constructor
    · rintro ⟨⟨⟨p', m'⟩, n'⟩, ⟨htab, hm⟩, hp⟩
      simp only at hm hp
      subst hp
      obtain ⟨hpos, hn⟩ := mem_monthCountsTable.mp htab
      refine ⟨table_person_eligible htab, ?_⟩
      rcases hm with rfl | rfl
      · exact Or.inl hpos
      · exact Or.inr hpos
    · rintro ⟨hel, hcount⟩
      rcases hcount with hpos | hpos
      · exact ⟨((p, prevMonth df), monthCount df p (prevMonth df)),
          ⟨mem_monthCountsTable.mpr ⟨hpos, rfl⟩, Or.inl rfl⟩, rfl⟩
      · exact ⟨((p, latestMonth df), monthCount df p (latestMonth df)),
          ⟨mem_monthCountsTable.mpr ⟨hpos, rfl⟩, Or.inr rfl⟩, rfl⟩
  have hretained : retainedAt df T = specRetained df T := by
    ext p
    unfold retainedAt specRetained
    simp only [Finset.mem_inter, List.mem_toFinset, List.mem_map,
      List.mem_filter, Finset.mem_filter, decide_eq_true_eq]
    constructor
    · rintro ⟨⟨⟨⟨p1, m1⟩, n1⟩, ⟨htab1, hm1, hT1⟩, hp1⟩,
        ⟨⟨⟨p2, m2⟩, n2⟩, ⟨htab2, hm2, hT2⟩, hp2⟩⟩
      simp only at hm1 hT1 hp1 hm2 hT2 hp2
      subst hp1; subst hp2; subst hm1; subst hm2
      obtain ⟨hpos1, hn1⟩ := mem_monthCountsTable.mp htab1
      obtain ⟨hpos2, hn2⟩ := mem_monthCountsTable.mp htab2
      exact ⟨table_person_eligible htab1, hn2 ▸ hT2, hn1 ▸ hT1⟩
    · rintro ⟨hel, hTp, hTl⟩
      have hposp : 0 < monthCount df p (prevMonth df) := by omega
      have hposl : 0 < monthCount df p (latestMonth df) := by omega
      exact ⟨⟨((p, latestMonth df), monthCount df p (latestMonth df)),
          ⟨mem_monthCountsTable.mpr ⟨hposl, rfl⟩, rfl, hTl⟩, rfl⟩,
        ⟨((p, prevMonth df), monthCount df p (prevMonth df)),
          ⟨mem_monthCountsTable.mpr ⟨hposp, rfl⟩, rfl, hTp⟩, rfl⟩⟩
  refine ⟨hactive, hretained, ?_⟩
  unfold retentionPct
  rw [hactive, hretained]
  rcases Nat.eq_zero_or_pos (specActiveLastTwo df).card with h0 | h0
  · rw [h0]
    simp
  · rw [if_pos h0, if_neg (by omega)]

/-- Witness for C2 at a two-row frame (person 1, months 0 and 5),
threshold 4. -/
theorem threshold_monthly_retention_witness :
    activeLastTwo [PRow.mk 1 ⟨0, 1⟩ "a", PRow.mk 1 ⟨5, 1⟩ "a"] =
      specActiveLastTwo [PRow.mk 1 ⟨0, 1⟩ "a", PRow.mk 1 ⟨5, 1⟩ "a"] ∧
    retainedAt [PRow.mk 1 ⟨0, 1⟩ "a", PRow.mk 1 ⟨5, 1⟩ "a"] 4 =
      specRetained [PRow.mk 1 ⟨0, 1⟩ "a", PRow.mk 1 ⟨5, 1⟩ "a"] 4 ∧
    retentionPct [PRow.mk 1 ⟨0, 1⟩ "a", PRow.mk 1 ⟨5, 1⟩ "a"] 4 =
      (if (specActiveLastTwo [PRow.mk 1 ⟨0, 1⟩ "a", PRow.mk 1 ⟨5, 1⟩ "a"]).card
          = 0 then 0
       else ((specRetained [PRow.mk 1 ⟨0, 1⟩ "a", PRow.mk 1 ⟨5, 1⟩ "a"] 4).card
           : ℚ) /
         ((specActiveLastTwo [PRow.mk 1 ⟨0, 1⟩ "a",
             PRow.mk 1 ⟨5, 1⟩ "a"]).card : ℚ) * 100) :=
  threshold_monthly_retention [PRow.mk 1 ⟨0, 1⟩ "a", PRow.mk 1 ⟨5, 1⟩ "a"] 4
    (by decide)

/-- C8 — Threshold monotonicity: for every frame and thresholds
`T1 ≤ T2`, the retained set at the stricter threshold `T2` is a subset of
the retained set at `T1`; in particular its size never increases. -/
theorem threshold_monotonicity (df : List PRow) (T1 T2 : Nat)
    (h : T1 ≤ T2) :
    retainedAt df T2 ⊆ retainedAt df T1 ∧
    (retainedAt df T2).card ≤ (retainedAt df T1).card := by
  have hsub : retainedAt df T2 ⊆ retainedAt df T1 := by
    intro p hp
    unfold retainedAt at hp ⊢
    simp only [Finset.mem_inter, List.mem_toFinset, List.mem_map,
      List.mem_filter, decide_eq_true_eq] at hp ⊢
    obtain ⟨⟨e1, ⟨he1, hm1, hT1⟩, hp1⟩, ⟨e2, ⟨he2, hm2, hT2⟩, hp2⟩⟩ := hp
    exact ⟨⟨e1, ⟨he1, hm1, le_trans h hT1⟩, hp1⟩,
      ⟨e2, ⟨he2, hm2, le_trans h hT2⟩, hp2⟩⟩
  exact ⟨hsub, Finset.card_le_card hsub⟩

/-- Witness for C8 at the two-row frame, thresholds 1 ≤ 2. -/
theorem threshold_monotonicity_witness :
    retainedAt [PRow.mk 1 ⟨0, 1⟩ "a", PRow.mk 1 ⟨5, 1⟩ "a"] 2 ⊆
      retainedAt [PRow.mk 1 ⟨0, 1⟩ "a", PRow.mk 1 ⟨5, 1⟩ "a"] 1 ∧
    (retainedAt [PRow.mk 1 ⟨0, 1⟩ "a", PRow.mk 1 ⟨5, 1⟩ "a"] 2).card ≤
      (retainedAt [PRow.mk 1 ⟨0, 1⟩ "a", PRow.mk 1 ⟨5, 1⟩ "a"] 1).card :=
  threshold_monotonicity [PRow.mk 1 ⟨0, 1⟩ "a", PRow.mk 1 ⟨5, 1⟩ "a"] 1 2
    (by decide)

/-! ## `pyqt5UI-chart-with-map.py` — spreadsheet export

`RetentionApp.generate_excel` (lines 209–224): recompute the retention for
the chosen threshold, build the grouped table of retained attendees with
their comma-joined sorted distinct activity types, and write it to
`Retention Excels/retention_report_<T>.xlsx`.  The write is unconditional:
the code contains no existence check on the target file. -/

/-- The spreadsheet path written for threshold `T`:
`os.path.join("Retention Excels", "retention_report_" + str(T) + ".xlsx")`. -/
def exportFileName (T : Nat) : String :=
  "Retention Excels/retention_report_" ++ toString T ++ ".xlsx"

/-- In-memory model of the export directory: an association of file names to
exported tables; the head entry for a name is its current contents. -/
def FS : Type := List (String × List (Nat × String))

/-- Current contents of a file, `none` if it does not exist. -/
def fsGet (fs : FS) (name : String) : Option (List (Nat × String)) :=
  List.lookup name fs

/-- `", ".join(sorted(set(x)))` over a person's activity types in the
retained sub-frame (line 217). -/
def activitySummary (rows : List PRow) (p : Nat) : String :=
  String.intercalate ", "
    (List.insertionSort (fun a b : String => a ≤ b)
      ((rows.filter (fun r => r.person = p)).map PRow.activity).dedup)

/-- The grouped export frame (lines 216–217): the retained attendees in
ascending order (pandas `groupby` sorts its keys), each with the
comma-joined sorted distinct activity types of their eligible rows. -/
def exportTable (df : List PRow) (T : Nat) : List (Nat × String) :=
  (List.insertionSort (fun a b : Nat => a ≤ b)
      ((((dfEligible df).filter (fun r => r.person ∈ retainedAt df T)).map
        PRow.person).dedup)).map
    (fun p =>
      (p, activitySummary
        ((dfEligible df).filter (fun r => r.person ∈ retainedAt df T)) p))

/-- `RetentionApp.generate_excel`: recompute the retention, then write the
grouped table to the file named by the threshold — unconditionally (the
function has no `os.path.exists` check; `grouped.to_excel(export_file)`
always runs). -/
def generateExcel (df : List PRow) (T : Nat) (fs : FS) : FS :=
  (exportFileName T, exportTable df T) :: fs

/-- A pre-existing export file for threshold 4 with non-trivial contents. -/
def sampleExportFS : FS := [(exportFileName 4, [(99, "x")])]

/-- A two-row frame on which threshold 4 retains nobody, so the freshly
computed export table is empty. -/
def sampleUIRows : List PRow :=
  [PRow.mk 1 ⟨0, 1⟩ "a", PRow.mk 1 ⟨5, 1⟩ "a"]

/-- Counterexample to C3 as stated: the target spreadsheet for threshold 4
already exists, yet running the export changes its contents — the export is
not skipped. -/
theorem export_skip_counterexample :
    (fsGet sampleExportFS (exportFileName 4)).isSome = true ∧
    fsGet (generateExcel sampleUIRows 4 sampleExportFS) (exportFileName 4) ≠
      fsGet sampleExportFS (exportFileName 4) := by
  constructor
  · rfl
  · decide

/-- C3 amended — the export always regenerates: for every file-system
state, frame and threshold, `generate_excel` writes the freshly computed
retention table to the spreadsheet named by the threshold, whether or not
that file already exists, and the contents of every other file are
unchanged. -/
theorem export_always_overwrites (df : List PRow) (T : Nat) (fs : FS)
    (n : String) (hn : n ≠ exportFileName T) :
    fsGet (generateExcel df T fs) (exportFileName T) =
      some (exportTable df T) ∧
    fsGet (generateExcel df T fs) n = fsGet fs n := by
  constructor
  · unfold generateExcel fsGet
    rw [List.lookup_cons]
    simp
  · unfold generateExcel fsGet
    rw [List.lookup_cons]
    have : (n == exportFileName T) = false := by
      simp only [beq_eq_false_iff_ne, ne_eq]
      exact hn
    rw [this]

/-- Witness for the amended C3 at the sample frame and file system. -/
theorem export_always_overwrites_witness :
    fsGet (generateExcel sampleUIRows 4 sampleExportFS) (exportFileName 4) =
      some (exportTable sampleUIRows 4) ∧
    fsGet (generateExcel sampleUIRows 4 sampleExportFS) "other.xlsx" =
      fsGet sampleExportFS "other.xlsx" :=
  export_always_overwrites sampleUIRows 4 sampleExportFS "other.xlsx"
    (by decide)
